import Mathlib

/-!
# Shallow embedding of `lru_dict` (src/lru_dict/lru_dict.py)

The Python class `lru_dict` keeps three pieces of mutable state:

* `__size`  : the configured capacity (a Python integer, checked `>= 1`);
* `_stack`  : a Python list of keys, least-recently used first;
* `_data`   : a Python dict mapping keys to values.

We model the Python dict as an association list (insertion order, unique
keys in well-formed states), the stack as a `List K`, and the capacity as
an `Int` (Python integers are unbounded and may be compared with `< 1`).

Python raises exceptions while mutating `self` in place, so every fallible
operation is modelled as `state → Except Err α × state`: the second
component is the state of the object when the call returns *or raises*.
-/

namespace LruDict

/-- The Python exceptions that appear in `lru_dict.py`:
`KeyError` (missing dict key), `ValueError` (bad size / `list.index` miss),
`IndexError` (indexing an empty list). -/
inductive Err where
  | keyError : Err
  | valueError : Err
  | indexError : Err
deriving DecidableEq, Repr

variable {K V : Type} [DecidableEq K]

/-- Lookup in a Python dict modelled as an association list:
`self._data[key]`. -/
def dictGet (d : List (K × V)) (k : K) : Option V :=
  match d with
  | [] => none
  | p :: ps => if p.1 = k then some p.2 else dictGet ps k

/-- Python dict assignment `self._data[key] = value`: replaces the value of
an existing key in place, otherwise appends a fresh entry. -/
def dictSet (d : List (K × V)) (k : K) (v : V) : List (K × V) :=
  match d with
  | [] => [(k, v)]
  | p :: ps => if p.1 = k then (k, v) :: ps else p :: dictSet ps k v

/-- Python `del self._data[key]` without the key check: removes the first
entry with the given key. -/
def dictErase (d : List (K × V)) (k : K) : List (K × V) :=
  match d with
  | [] => []
  | p :: ps => if p.1 = k then ps else p :: dictErase ps k

/-- The state of a Python `lru_dict` object: `__size`, `_stack`, `_data`. -/
structure lru_dict (K V : Type) where
  size : Int
  stack : List K
  data : List (K × V)
deriving DecidableEq, Repr

/-- Python `lru_dict.__contains__`: `value in self._data`. -/
def contains (s : lru_dict K V) (k : K) : Bool :=
  (dictGet s.data k).isSome

/-- Python `lru_dict.__len__` and the `filled` property: `len(self._stack)`. -/
def filled (s : lru_dict K V) : Nat :=
  s.stack.length

/-- Python `lru_dict.lru` property: `self._stack[0]`; raises `IndexError` on an
empty list. -/
def lru (s : lru_dict K V) : Except Err K :=
  match s.stack with
  | [] => .error .indexError
  | k :: _ => .ok k

/-- Python `lru_dict.mru` property: `self._stack[-1]`; raises `IndexError` on an
empty list. -/
def mru (s : lru_dict K V) : Except Err K :=
  match s.stack.getLast? with
  | none => .error .indexError
  | some k => .ok k

/-- Python `lru_dict.peek`: `return self._data[key]` — a pure dict read, raising
`KeyError` when absent, never touching `_stack`. -/
def peek (k : K) (s : lru_dict K V) : Except Err V × lru_dict K V :=
  match dictGet s.data k with
  | none => (.error .keyError, s)
  | some v => (.ok v, s)

/-- Python `lru_dict._make_key_newest`: `index = self._stack.index(key)` (a
`ValueError` on a miss is re-raised as `KeyError`), then
`self._stack.append(self._stack.pop(index))`.  Popping the first
occurrence of `key` and appending it is `List.erase` followed by an
append. -/
def make_key_newest (k : K) (s : lru_dict K V) :
    Except Err Unit × lru_dict K V :=
  if k ∈ s.stack then
    (.ok (), { s with stack := s.stack.erase k ++ [k] })
  else
    (.error .keyError, s)

/-- Python `lru_dict.__delitem__`: `del self._data[key]` (raises `KeyError` when
absent), then `self._stack.pop(self._stack.index(key))` (raises
`ValueError` when absent from the stack, leaving `_data` already
mutated). -/
def delitem (k : K) (s : lru_dict K V) :
    Except Err Unit × lru_dict K V :=
  match dictGet s.data k with
  | none => (.error .keyError, s)
  | some _ =>
      let s₁ := { s with data := dictErase s.data k }
      if k ∈ s₁.stack then
        (.ok (), { s₁ with stack := s₁.stack.erase k })
      else
        (.error .valueError, s₁)

/-- Python `lru_dict.__setitem__`: if `key in self` then `_make_key_newest(key)`
else append the key to `_stack`; then `self._data[key] = value`; finally
if `len(self._stack) > self.size` delete `self._stack[0]` via
`__delitem__`. -/
def setitem (k : K) (v : V) (s : lru_dict K V) :
    Except Err Unit × lru_dict K V :=
  let step₁ :=
    if contains s k then make_key_newest k s
    else (.ok (), { s with stack := s.stack ++ [k] })
  match step₁ with
  | (.error e, s₁) => (.error e, s₁)
  | (.ok _, s₁) =>
      let s₂ := { s₁ with data := dictSet s₁.data k v }
      if (s₂.stack.length : Int) > s₂.size then
        match s₂.stack with
        | [] => (.error .indexError, s₂)
        | k₀ :: _ => delitem k₀ s₂
      else
        (.ok (), s₂)

/-- Python `lru_dict.__getitem__`: `self._make_key_newest(key)` then
`return self._data[key]`. -/
def getitem (k : K) (s : lru_dict K V) :
    Except Err V × lru_dict K V :=
  match make_key_newest k s with
  | (.error e, s₁) => (.error e, s₁)
  | (.ok _, s₁) =>
      match dictGet s₁.data k with
      | none => (.error .keyError, s₁)
      | some v => (.ok v, s₁)

/-- The eviction loop of `lru_dict.resize`:
`for key in evicted: del self._data[key]` — each `del` raises `KeyError`
when the key is missing, keeping the deletions already done. -/
def delDataLoop (ks : List K) (d : List (K × V)) :
    Except Err Unit × List (K × V) :=
  match ks with
  | [] => (.ok (), d)
  | k :: ks' =>
      match dictGet d k with
      | none => (.error .keyError, d)
      | some _ => delDataLoop ks' (dictErase d k)

/-- Python `lru_dict.resize`: reject `new_size < 1` with `ValueError`, set
`__size`, and when `len(self) > self.size` delete the keys of
`self._stack[:-self.size]` from `_data` and keep
`self._stack[-self.size:]`.  For `n ≥ 1`, Python `xs[:-n]` is
`take (length - n)` and `xs[-n:]` is `drop (length - n)`. -/
def resize (n : Int) (s : lru_dict K V) :
    Except Err Unit × lru_dict K V :=
  if n < 1 then (.error .valueError, s)
  else
    let s₁ := { s with size := n }
    if (s₁.stack.length : Int) > s₁.size then
      let cut := s₁.stack.length - n.toNat
      match delDataLoop (s₁.stack.take cut) s₁.data with
      | (.error e, d') => (.error e, { s₁ with data := d' })
      | (.ok _, d') =>
          (.ok (), { s₁ with data := d', stack := s₁.stack.drop cut })
    else
      (.ok (), s₁)

/-- The `update` loop run by `lru_dict.__init__` on `existing`: each pair
is inserted through `__setitem__`. -/
def updateLoop (ps : List (K × V)) (s : lru_dict K V) :
    Except Err (lru_dict K V) :=
  match ps with
  | [] => .ok s
  | (k, v) :: ps' =>
      match setitem k v s with
      | (.ok _, s') => updateLoop ps' s'
      | (.error e, _) => .error e

/-- Python `lru_dict.__init__`: reject `size < 1` with `ValueError`, start with an
empty stack and dict, and insert `existing` through the write path. -/
def init (size : Int) (existing : List (K × V)) :
    Except Err (lru_dict K V) :=
  if size < 1 then .error .valueError
  else updateLoop existing { size := size, stack := [], data := [] }

/-- Python `lru_dict.keys()`: `KeysView(ProxiedPeek(self))` iterates
`__iter__`, which is `iter(self._stack)`. -/
def keysList (s : lru_dict K V) : List K :=
  s.stack

/-- One traversal step of `ValuesView`/`ItemsView` over `ProxiedPeek`:
each key of `iter(self._stack)` is read through `peek`, threading the
(unchanged) object state. -/
def traverseItemsFrom (ks : List K) (s : lru_dict K V) :
    Except Err (List (K × V)) × lru_dict K V :=
  match ks with
  | [] => (.ok [], s)
  | k :: ks' =>
      match peek k s with
      | (.error e, s') => (.error e, s')
      | (.ok v, s') =>
          match traverseItemsFrom ks' s' with
          | (.error e, s'') => (.error e, s'')
          | (.ok l, s'') => (.ok ((k, v) :: l), s'')

/-- Python `lru_dict.items()`: `ItemsView(ProxiedPeek(self))` traverses
`iter(self._stack)` reading each value through `peek`. -/
def traverseItems (s : lru_dict K V) :
    Except Err (List (K × V)) × lru_dict K V :=
  traverseItemsFrom s.stack s

/-- One traversal step of `ValuesView` over `ProxiedPeek`: each key of
`iter(self._stack)` is read through `peek` and only the value is kept,
threading the (unchanged) object state. -/
def traverseValuesFrom (ks : List K) (s : lru_dict K V) :
    Except Err (List V) × lru_dict K V :=
  match ks with
  | [] => (.ok [], s)
  | k :: ks' =>
      match peek k s with
      | (.error e, s') => (.error e, s')
      | (.ok v, s') =>
          match traverseValuesFrom ks' s' with
          | (.error e, s'') => (.error e, s'')
          | (.ok l, s'') => (.ok (v :: l), s'')

/-- Python `lru_dict.values()`: `ValuesView(ProxiedPeek(self))` traverses
`iter(self._stack)` reading each value through `peek`. -/
def traverseValues (s : lru_dict K V) :
    Except Err (List V) × lru_dict K V :=
  traverseValuesFrom s.stack s

/-- The key-value sequence a traversal yields: the stack oldest-to-newest,
each key paired with its stored value. -/
def itemsOf (s : lru_dict K V) : List (K × V) :=
  s.stack.filterMap fun k => (dictGet s.data k).map fun v => (k, v)

/-- The walk of `lru_dict.items()` used by `__eq__`: the stack in recency
order, each key paired with the `peek` of its value. -/
def itemsView (s : lru_dict K V) : List (K × Option V) :=
  s.stack.map fun k => (k, dictGet s.data k)

/-- Python `lru_dict.__eq__` against another `lru_dict`: sizes equal, fills
equal, and `all(s == o for s, o in zip(self.items(), other.items()))`. -/
def lruEq [DecidableEq V] (a b : lru_dict K V) : Bool :=
  a.size == b.size && a.stack.length == b.stack.length &&
    ((itemsView a).zip (itemsView b)).all fun pq => decide (pq.1 = pq.2)

/-- Batch deletion of keys from the dict, left to right: the functional
result of the eviction loop in `resize`. -/
def eraseAll (d : List (K × V)) (ks : List K) : List (K × V) :=
  ks.foldl dictErase d

/-- The keys of the modelled dict, in insertion order. -/
def dictKeys (d : List (K × V)) : List K :=
  d.map Prod.fst

/-- Well-formedness of an `lru_dict` state, maintained by every public
operation: the stack holds each key once, the dict keys are unique, the
stack and the dict hold the same key set, the fill is at most the size,
and the size is at least 1. -/
def WF (s : lru_dict K V) : Prop :=
  s.stack.Nodup ∧ (dictKeys s.data).Nodup ∧
    (∀ k ∈ s.stack, k ∈ dictKeys s.data) ∧
    (∀ k ∈ dictKeys s.data, k ∈ s.stack) ∧
    (s.stack.length : Int) ≤ s.size ∧ 1 ≤ s.size

instance (s : lru_dict K V) : Decidable (WF s) := by
  unfold WF; infer_instance

/-! ## Lemmas about the dict model -/

theorem dictGet_isSome_iff (d : List (K × V)) (k : K) :
    (dictGet d k).isSome ↔ k ∈ dictKeys d := by
  induction d with
  | nil => simp [dictGet, dictKeys]
  | cons p ps ih =>
      by_cases h : p.1 = k
      · simp [dictGet, dictKeys, h]
      · have hk : ¬ k = p.1 := fun hh => h hh.symm
        simp only [dictGet, if_neg h, dictKeys, List.map_cons, List.mem_cons]
        rw [show (List.map Prod.fst ps) = dictKeys ps from rfl, ← ih]
        simp [hk]

theorem dictGet_eq_none_iff (d : List (K × V)) (k : K) :
    dictGet d k = none ↔ k ∉ dictKeys d := by
  rw [← dictGet_isSome_iff]
  cases dictGet d k <;> simp

theorem dictGet_dictSet_self (d : List (K × V)) (k : K) (v : V) :
    dictGet (dictSet d k v) k = some v := by
  induction d with
  | nil => simp [dictGet, dictSet]
  | cons p ps ih => by_cases h : p.1 = k <;> simp [dictGet, dictSet, h, ih]

theorem dictGet_dictSet_ne (d : List (K × V)) (k k' : K) (v : V)
    (h : k' ≠ k) : dictGet (dictSet d k v) k' = dictGet d k' := by
  have hk : ¬ k = k' := fun hh => h hh.symm
  induction d with
  | nil => simp [dictGet, dictSet, hk]
  | cons p ps ih =>
      by_cases hp : p.1 = k
      · subst hp; simp [dictGet, dictSet, hk, h]
      · by_cases hp' : p.1 = k' <;>
          simp [dictGet, dictSet, hp, hp', h, hk, ih]

theorem dictKeys_dictSet (d : List (K × V)) (k : K) (v : V) :
    dictKeys (dictSet d k v) =
      if k ∈ dictKeys d then dictKeys d else dictKeys d ++ [k] := by
  induction d with
  | nil => simp [dictKeys, dictSet]
  | cons p ps ih =>
      by_cases h : p.1 = k
      · simp [dictKeys, dictSet, h]
      · have hk : ¬ k = p.1 := fun hh => h hh.symm
        by_cases hm : k ∈ List.map Prod.fst ps <;>
          simp [dictKeys, dictSet, h, hk, hm, List.mem_cons] at ih ⊢ <;>
          simp [ih]

theorem dictKeys_dictSet_nodup (d : List (K × V)) (k : K) (v : V)
    (h : (dictKeys d).Nodup) : (dictKeys (dictSet d k v)).Nodup := by
  rw [dictKeys_dictSet]
  by_cases hm : k ∈ dictKeys d <;> simp_all [List.nodup_append]

theorem dictKeys_dictErase (d : List (K × V)) (k : K) :
    dictKeys (dictErase d k) = (dictKeys d).erase k := by
  induction d with
  | nil => simp [dictKeys, dictErase]
  | cons p ps ih =>
      by_cases h : p.1 = k
      · simp [dictKeys, dictErase, h]
      · simp only [dictKeys, List.map_cons] at ih ⊢
        simp only [dictErase, if_neg h, List.map_cons, List.erase_cons, ih]
        simp [beq_iff_eq, h]

theorem dictKeys_dictErase_nodup (d : List (K × V)) (k : K)
    (h : (dictKeys d).Nodup) : (dictKeys (dictErase d k)).Nodup := by
  rw [dictKeys_dictErase]; exact h.erase k

theorem dictGet_dictErase_self (d : List (K × V)) (k : K)
    (h : (dictKeys d).Nodup) : dictGet (dictErase d k) k = none := by
  induction d with
  | nil => simp [dictGet, dictErase]
  | cons p ps ih =>
      simp only [dictKeys, List.map_cons, List.nodup_cons] at h
      by_cases hp : p.1 = k
      · subst hp
        rw [dictGet_eq_none_iff]
        simpa [dictErase, dictKeys] using h.1
      · simp [dictGet, dictErase, hp, ih h.2]

theorem dictGet_dictErase_ne (d : List (K × V)) (k k' : K) (h : k' ≠ k) :
    dictGet (dictErase d k) k' = dictGet d k' := by
  have hk : ¬ k = k' := fun hh => h hh.symm
  induction d with
  | nil => simp [dictGet, dictErase]
  | cons p ps ih =>
      by_cases hp : p.1 = k
      · subst hp; simp [dictGet, dictErase, hk]
      · by_cases hp' : p.1 = k' <;>
          simp [dictGet, dictErase, hp, hp', h, hk, ih]

theorem dictGet_eraseAll (d : List (K × V)) (ks : List K) (k : K)
    (h : (dictKeys d).Nodup) :
    dictGet (eraseAll d ks) k = if k ∈ ks then none else dictGet d k := by
  induction ks generalizing d with
  | nil => simp [eraseAll]
  | cons k₁ ks' ih =>
      have hstep : eraseAll d (k₁ :: ks') = eraseAll (dictErase d k₁) ks' := rfl
      rw [hstep, ih _ (dictKeys_dictErase_nodup d k₁ h)]
      by_cases hk : k = k₁
      · subst hk
        by_cases hm : k ∈ ks' <;> simp [hm, dictGet_dictErase_self d k h]
      · by_cases hm : k ∈ ks' <;>
          simp [hm, hk, dictGet_dictErase_ne d k₁ k hk]

theorem eraseAll_keys_nodup (d : List (K × V)) (ks : List K)
    (h : (dictKeys d).Nodup) : (dictKeys (eraseAll d ks)).Nodup := by
  induction ks generalizing d with
  | nil => exact h
  | cons k₁ ks' ih => exact ih _ (dictKeys_dictErase_nodup d k₁ h)

theorem delDataLoop_ok (ks : List K) (d : List (K × V))
    (hnd : (dictKeys d).Nodup) (hks : ks.Nodup)
    (hmem : ∀ k ∈ ks, (dictGet d k).isSome) :
    delDataLoop ks d = (.ok (), eraseAll d ks) := by
  induction ks generalizing d with
  | nil => simp [delDataLoop, eraseAll]
  | cons k₁ ks' ih =>
      have h₁ : (dictGet d k₁).isSome := hmem k₁ (by simp)
      obtain ⟨v, hv⟩ := Option.isSome_iff_exists.mp h₁
      simp only [List.nodup_cons] at hks
      have hrest : ∀ k ∈ ks', (dictGet (dictErase d k₁) k).isSome := by
        intro k hk
        rw [dictGet_dictErase_ne d k₁ k (fun he => hks.1 (he ▸ hk))]
        exact hmem k (by simp [hk])
      simp only [delDataLoop, hv]
      exact ih (dictErase d k₁) (dictKeys_dictErase_nodup d k₁ hnd) hks.2 hrest

/-! ## Basic facts about well-formed states -/

theorem WF.mem_iff {s : lru_dict K V} (h : WF s) (k : K) :
    k ∈ s.stack ↔ (dictGet s.data k).isSome := by
  rw [dictGet_isSome_iff]
  exact ⟨fun hk => h.2.2.1 k hk, fun hk => h.2.2.2.1 k hk⟩

theorem WF.stack_nodup {s : lru_dict K V} (h : WF s) : s.stack.Nodup := h.1

theorem WF.data_nodup {s : lru_dict K V} (h : WF s) :
    (dictKeys s.data).Nodup := h.2.1

theorem WF.len_le {s : lru_dict K V} (h : WF s) :
    (s.stack.length : Int) ≤ s.size := h.2.2.2.2.1

theorem WF.size_pos {s : lru_dict K V} (h : WF s) : 1 ≤ s.size :=
  h.2.2.2.2.2

/-! ## Characterization of the operations on (well-formed) states -/

theorem bump_nodup (l : List K) (k : K) (h : l.Nodup) :
    (l.erase k ++ [k]).Nodup := by
  have hne : k ∉ l.erase k := fun hm => ((h.mem_erase_iff).mp hm).1 rfl
  simp [List.nodup_append, h.erase k, hne]

theorem mem_bump_iff (l : List K) (k a : K) (hk : k ∈ l) :
    a ∈ l.erase k ++ [k] ↔ a ∈ l := by
  by_cases ha : a = k
  · subst ha; simp [hk]
  · simp [List.mem_append, List.mem_erase_of_ne ha, ha]

theorem length_bump (l : List K) (k : K) (hk : k ∈ l) :
    (l.erase k ++ [k]).length = l.length := by
  have hpos : 0 < l.length := List.length_pos.mpr (by rintro rfl; simp at hk)
  rw [List.length_append, List.length_erase_of_mem hk]
  simp; omega

theorem make_key_newest_mem {s : lru_dict K V} {k : K} (hk : k ∈ s.stack) :
    make_key_newest k s =
      (.ok (), { s with stack := s.stack.erase k ++ [k] }) := by
  simp [make_key_newest, hk]

theorem make_key_newest_not_mem {s : lru_dict K V} {k : K}
    (hk : k ∉ s.stack) : make_key_newest k s = (.error .keyError, s) := by
  simp [make_key_newest, hk]

theorem peek_present {s : lru_dict K V} {k : K} {v : V}
    (hv : dictGet s.data k = some v) : peek k s = (.ok v, s) := by
  simp [peek, hv]

theorem peek_absent {s : lru_dict K V} {k : K}
    (hv : dictGet s.data k = none) : peek k s = (.error .keyError, s) := by
  simp [peek, hv]

theorem getitem_present {s : lru_dict K V} {k : K} {v : V} (hs : WF s)
    (hv : dictGet s.data k = some v) :
    getitem k s = (.ok v, { s with stack := s.stack.erase k ++ [k] }) := by
  have hk : k ∈ s.stack := (hs.mem_iff k).mpr (by simp [hv])
  simp [getitem, make_key_newest_mem hk, hv]

theorem getitem_absent {s : lru_dict K V} {k : K} (hs : WF s)
    (hv : dictGet s.data k = none) :
    getitem k s = (.error .keyError, s) := by
  have hk : k ∉ s.stack := fun hm => by
    simpa [hv] using (hs.mem_iff k).mp hm
  simp [getitem, make_key_newest_not_mem hk]

theorem delitem_present {s : lru_dict K V} {k : K} {v : V} (hs : WF s)
    (hv : dictGet s.data k = some v) :
    delitem k s = (.ok (),
      { s with stack := s.stack.erase k, data := dictErase s.data k }) := by
  have hk : k ∈ s.stack := (hs.mem_iff k).mpr (by simp [hv])
  simp [delitem, hv, hk]

theorem delitem_absent {s : lru_dict K V} {k : K}
    (hv : dictGet s.data k = none) :
    delitem k s = (.error .keyError, s) := by
  simp [delitem, hv]

theorem setitem_present {s : lru_dict K V} {k : K} {v : V} (hs : WF s)
    (hk : k ∈ s.stack) :
    setitem k v s = (.ok (),
      { s with stack := s.stack.erase k ++ [k],
               data := dictSet s.data k v }) := by
  have hc : contains s k = true := by
    simp [contains, ← hs.mem_iff k, hk]
  have hlen : ((s.stack.erase k ++ [k]).length : Int) ≤ s.size := by
    rw [length_bump s.stack k hk]; exact hs.len_le
  simp only [setitem, hc, if_pos, make_key_newest_mem hk]
  simp only [not_lt.mpr hlen, gt_iff_lt, if_neg (not_lt.mpr hlen)]
  simp

theorem setitem_absent_room {s : lru_dict K V} {k : K} {v : V} (hs : WF s)
    (hk : k ∉ s.stack) (hroom : (s.stack.length : Int) + 1 ≤ s.size) :
    setitem k v s = (.ok (),
      { s with stack := s.stack ++ [k], data := dictSet s.data k v }) := by
  have hnone : dictGet s.data k = none := by
    rw [dictGet_eq_none_iff]
    exact fun hm => hk (hs.2.2.2.1 k hm)
  have hc : contains s k = false := by simp [contains, hnone]
  simp [setitem, hc]
  intro h
  exact absurd h (by omega)

theorem setitem_absent_full {s : lru_dict K V} {k k₀ : K} {rest : List K}
    {v : V} (hs : WF s) (hk : k ∉ s.stack) (hst : s.stack = k₀ :: rest)
    (hfull : s.size < (s.stack.length : Int) + 1) :
    setitem k v s = (.ok (),
      { s with stack := rest ++ [k],
               data := dictErase (dictSet s.data k v) k₀ }) := by
  have hnone : dictGet s.data k = none := by
    rw [dictGet_eq_none_iff]
    exact fun hm => hk (hs.2.2.2.1 k hm)
  have hc : contains s k = false := by simp [contains, hnone]
  have hk₀s : k₀ ∈ s.stack := by rw [hst]; simp
  have hkk₀ : k₀ ≠ k := fun he => hk (he ▸ hk₀s)
  have hv₀ : (dictGet s.data k₀).isSome := (hs.mem_iff k₀).mp hk₀s
  obtain ⟨v₀, hv₀⟩ := Option.isSome_iff_exists.mp hv₀
  have hget : dictGet (dictSet s.data k v) k₀ = some v₀ := by
    rw [dictGet_dictSet_ne s.data k k₀ v hkk₀]; exact hv₀
  simp [setitem, hc, hst, delitem, hget, List.erase_cons_head]
  rw [hst] at hfull
  simp only [List.length_cons] at hfull
  push_cast at hfull ⊢
  omega

theorem dictGet_dictSet (d : List (K × V)) (k : K) (v : V) (a : K) :
    dictGet (dictSet d k v) a = if a = k then some v else dictGet d a := by
  by_cases h : a = k
  · subst h; simp [dictGet_dictSet_self]
  · simp [h, dictGet_dictSet_ne d k a v h]

theorem dictGet_dictErase (d : List (K × V)) (k : K) (a : K)
    (hnd : (dictKeys d).Nodup) :
    dictGet (dictErase d k) a = if a = k then none else dictGet d a := by
  by_cases h : a = k
  · subst h; simp [dictGet_dictErase_self d a hnd]
  · simp [h, dictGet_dictErase_ne d k a h]

theorem WF_mk (s : lru_dict K V) (h1 : s.stack.Nodup)
    (h2 : (dictKeys s.data).Nodup)
    (h3 : ∀ a, a ∈ s.stack ↔ (dictGet s.data a).isSome)
    (h4 : (s.stack.length : Int) ≤ s.size) (h5 : 1 ≤ s.size) : WF s :=
  ⟨h1, h2,
    fun a ha => (dictGet_isSome_iff s.data a).mp ((h3 a).mp ha),
    fun a ha => (h3 a).mpr ((dictGet_isSome_iff s.data a).mpr ha),
    h4, h5⟩

theorem resize_invalid {s : lru_dict K V} {n : Int} (h : n < 1) :
    resize n s = (.error .valueError, s) := by
  simp [resize, h]

theorem resize_noop {s : lru_dict K V} {n : Int} (h : 1 ≤ n)
    (hlen : (s.stack.length : Int) ≤ n) :
    resize n s = (.ok (), { s with size := n }) := by
  have h1 : ¬ n < 1 := by omega
  have h2 : ¬ ((s.stack.length : Int) > n) := by omega
  simp [resize, h1, h2]

theorem resize_trunc {s : lru_dict K V} {n : Int} (hs : WF s) (h : 1 ≤ n)
    (hlen : (s.stack.length : Int) > n) :
    resize n s = (.ok (),
      { size := n,
        stack := s.stack.drop (s.stack.length - n.toNat),
        data := eraseAll s.data
          (s.stack.take (s.stack.length - n.toNat)) }) := by
  have h1 : ¬ n < 1 := by omega
  have hnd : (s.stack.take (s.stack.length - n.toNat)).Nodup :=
    hs.stack_nodup.sublist (List.take_sublist _ _)
  have hmem : ∀ k ∈ s.stack.take (s.stack.length - n.toNat),
      (dictGet s.data k).isSome := fun k hk =>
    (hs.mem_iff k).mp (List.take_subset _ _ hk)
  have hloop := delDataLoop_ok (s.stack.take (s.stack.length - n.toNat))
    s.data hs.data_nodup hnd hmem
  simp [resize, h1, hlen, hloop]

theorem traverseItemsFrom_ok (ks : List K) (s : lru_dict K V)
    (h : ∀ k ∈ ks, (dictGet s.data k).isSome) :
    traverseItemsFrom ks s =
      (.ok (ks.filterMap fun k => (dictGet s.data k).map fun v => (k, v)),
       s) := by
  induction ks with
  | nil => simp [traverseItemsFrom]
  | cons k ks' ih =>
      obtain ⟨v, hv⟩ := Option.isSome_iff_exists.mp (h k (by simp))
      have hrest : ∀ k' ∈ ks', (dictGet s.data k').isSome :=
        fun k' hk' => h k' (by simp [hk'])
      simp [traverseItemsFrom, peek, hv, ih hrest]

theorem traverseItems_wf {s : lru_dict K V} (hs : WF s) :
    traverseItems s = (.ok (itemsOf s), s) :=
  traverseItemsFrom_ok s.stack s (fun k hk => (hs.mem_iff k).mp hk)

/-! ## Preservation of well-formedness -/

theorem setitem_total {s : lru_dict K V} (hs : WF s) (k : K) (v : V) :
    (setitem k v s).1 = .ok () ∧ WF (setitem k v s).2 := by
  by_cases hk : k ∈ s.stack
  · rw [setitem_present hs hk]
    refine ⟨rfl, WF_mk _ ?_ ?_ ?_ ?_ hs.size_pos⟩
    · exact bump_nodup _ _ hs.stack_nodup
    · exact dictKeys_dictSet_nodup _ _ _ hs.data_nodup
    · intro a
      show a ∈ s.stack.erase k ++ [k] ↔
        (dictGet (dictSet s.data k v) a).isSome
      rw [mem_bump_iff s.stack k a hk, dictGet_dictSet]
      by_cases ha : a = k
      · subst ha; simp [hk]
      · simp only [if_neg ha]; exact hs.mem_iff a
    · show ((s.stack.erase k ++ [k]).length : Int) ≤ s.size
      rw [length_bump s.stack k hk]
      exact hs.len_le
  · by_cases hroom : (s.stack.length : Int) + 1 ≤ s.size
    · rw [setitem_absent_room hs hk hroom]
      refine ⟨rfl, WF_mk _ ?_ ?_ ?_ ?_ hs.size_pos⟩
      · simp [List.nodup_append, hs.stack_nodup, hk]
      · exact dictKeys_dictSet_nodup _ _ _ hs.data_nodup
      · intro a
        show a ∈ s.stack ++ [k] ↔
          (dictGet (dictSet s.data k v) a).isSome
        rw [dictGet_dictSet]
        by_cases ha : a = k
        · subst ha; simp
        · simp only [if_neg ha, List.mem_append, List.mem_singleton, ha,
            or_false]
          exact hs.mem_iff a
      · show (((s.stack ++ [k]).length : Nat) : Int) ≤ s.size
        simp only [List.length_append, List.length_cons, List.length_nil]
        push_cast
        omega
    · have hne : s.stack ≠ [] := by
        intro h0
        rw [h0] at hroom
        have := hs.size_pos
        simp at hroom
        omega
      obtain ⟨k₀, rest, hst⟩ := List.exists_cons_of_ne_nil hne
      have hfull : s.size < (s.stack.length : Int) + 1 := by omega
      rw [setitem_absent_full hs hk hst hfull]
      have hnodup₀ : k₀ ∉ rest ∧ rest.Nodup := by
        have := hs.stack_nodup
        rw [hst] at this
        exact List.nodup_cons.mp this
      have hkk : k ∉ rest ∧ k ≠ k₀ := by
        rw [hst] at hk
        simp only [List.mem_cons, not_or] at hk
        exact ⟨hk.2, hk.1⟩
      have hsetnd : (dictKeys (dictSet s.data k v)).Nodup :=
        dictKeys_dictSet_nodup _ _ _ hs.data_nodup
      refine ⟨rfl, WF_mk _ ?_ ?_ ?_ ?_ hs.size_pos⟩
      · simp [List.nodup_append, hnodup₀.2, hkk.1]
      · exact dictKeys_dictErase_nodup _ _ hsetnd
      · intro a
        show a ∈ rest ++ [k] ↔
          (dictGet (dictErase (dictSet s.data k v) k₀) a).isSome
        rw [dictGet_dictErase _ _ _ hsetnd, dictGet_dictSet]
        by_cases hak₀ : a = k₀
        · subst hak₀
          simp [hnodup₀.1, Ne.symm hkk.2]
        · by_cases hak : a = k
          · subst hak; simp [hak₀]
          · simp only [if_neg hak₀, if_neg hak, List.mem_append,
              List.mem_singleton, hak, or_false, if_false]
            rw [← hs.mem_iff a, hst]
            simp [hak₀]
      · have hrl : s.stack.length = rest.length + 1 := by rw [hst]; rfl
        show (((rest ++ [k]).length : Nat) : Int) ≤ s.size
        simp only [List.length_append, List.length_cons, List.length_nil]
        have hle := hs.len_le
        rw [hrl] at hle
        push_cast at hle ⊢
        omega

theorem delitem_wf {s : lru_dict K V} (hs : WF s) (k : K) :
    WF (delitem k s).2 := by
  cases hv : dictGet s.data k with
  | none => rw [delitem_absent hv]; exact hs
  | some v =>
      rw [delitem_present hs hv]
      have hk : k ∈ s.stack := (hs.mem_iff k).mpr (by simp [hv])
      refine WF_mk _ (hs.stack_nodup.erase k)
        (dictKeys_dictErase_nodup _ _ hs.data_nodup) ?_ ?_ hs.size_pos
      · intro a
        show a ∈ s.stack.erase k ↔ (dictGet (dictErase s.data k) a).isSome
        rw [dictGet_dictErase _ _ _ hs.data_nodup,
          hs.stack_nodup.mem_erase_iff]
        by_cases ha : a = k
        · simp [ha]
        · simp only [if_neg ha, ha, ne_eq, not_false_iff, true_and]
          exact hs.mem_iff a
      · have h1 : (s.stack.erase k).length = s.stack.length - 1 :=
          List.length_erase_of_mem hk
        have hle := hs.len_le
        show (((s.stack.erase k).length : Nat) : Int) ≤ s.size
        rw [h1]
        omega

theorem getitem_wf {s : lru_dict K V} (hs : WF s) (k : K) :
    WF (getitem k s).2 := by
  cases hv : dictGet s.data k with
  | none => rw [getitem_absent hs hv]; exact hs
  | some v =>
      rw [getitem_present hs hv]
      have hk : k ∈ s.stack := (hs.mem_iff k).mpr (by simp [hv])
      refine WF_mk _ (bump_nodup _ _ hs.stack_nodup) hs.data_nodup ?_ ?_
        hs.size_pos
      · intro a
        rw [show ({ s with stack := s.stack.erase k ++ [k] } :
              lru_dict K V).stack = s.stack.erase k ++ [k] from rfl,
          mem_bump_iff s.stack k a hk]
        exact hs.mem_iff a
      · simpa [length_bump s.stack k hk] using hs.len_le

theorem peek_snd (k : K) (s : lru_dict K V) : (peek k s).2 = s := by
  cases hv : dictGet s.data k <;> simp [peek, hv]

theorem traverseItemsFrom_snd (ks : List K) (s : lru_dict K V) :
    (traverseItemsFrom ks s).2 = s := by
  induction ks with
  | nil => rfl
  | cons k ks' ih =>
      cases hv : dictGet s.data k with
      | none => simp [traverseItemsFrom, peek, hv]
      | some v =>
          simp only [traverseItemsFrom, peek, hv]
          rcases h : traverseItemsFrom ks' s with ⟨r, t⟩
          have ht : t = s := by rw [← ih, h]
          cases r <;> simp [ht]

theorem resize_wf {s : lru_dict K V} (hs : WF s) (n : Int) :
    WF (resize n s).2 := by
  by_cases h1 : n < 1
  · rw [resize_invalid h1]; exact hs
  · have hn : 1 ≤ n := by omega
    by_cases hlen : (s.stack.length : Int) ≤ n
    · rw [resize_noop hn hlen]
      exact WF_mk _ hs.stack_nodup hs.data_nodup (fun a => hs.mem_iff a)
        hlen hn
    · have hgt : (s.stack.length : Int) > n := by omega
      rw [resize_trunc hs hn hgt]
      have hsplit : s.stack.take (s.stack.length - n.toNat) ++
          s.stack.drop (s.stack.length - n.toNat) = s.stack :=
        List.take_append_drop _ _
      have hnd := hs.stack_nodup
      rw [← hsplit] at hnd
      have hparts := List.nodup_append.mp hnd
      refine WF_mk _ (hparts.2.1) (eraseAll_keys_nodup _ _ hs.data_nodup)
        ?_ ?_ hn
      · intro a
        rw [dictGet_eraseAll _ _ _ hs.data_nodup]
        by_cases hat : a ∈ s.stack.take (s.stack.length - n.toNat)
        · simp only [if_pos hat, Option.isSome_none, Bool.false_eq_true,
            iff_false]
          exact fun hd => hparts.2.2 hat hd
        · simp only [if_neg hat]
          rw [← hs.mem_iff a, ← hsplit, List.mem_append]
          simp [hat]
      · have hlen2 : (s.stack.drop (s.stack.length - n.toNat)).length
            = s.stack.length - (s.stack.length - n.toNat) :=
          List.length_drop _ _
        rw [hlen2]
        have htn : n.toNat ≤ s.stack.length := by omega
        have : (n.toNat : Int) = n := Int.toNat_of_nonneg (by omega)
        push_cast
        omega

theorem updateLoop_wf (ps : List (K × V)) (s : lru_dict K V) (hs : WF s)
    (s' : lru_dict K V) (h : updateLoop ps s = .ok s') : WF s' := by
  induction ps generalizing s with
  | nil => cases h; exact hs
  | cons p ps' ih =>
      obtain ⟨k, v⟩ := p
      have htot := setitem_total hs k v
      have hpair : setitem k v s = (.ok (), (setitem k v s).2) := by
        rw [← htot.1]
      rw [updateLoop, hpair] at h
      exact ih _ htot.2 h

theorem init_wf (n : Int) (ps : List (K × V)) (s' : lru_dict K V)
    (h : init n ps = .ok s') : WF s' := by
  by_cases h1 : n < 1
  · rw [init, if_pos h1] at h; cases h
  · rw [init, if_neg h1] at h
    refine updateLoop_wf ps _ ?_ s' h
    refine WF_mk _ (by simp) (by simp [dictKeys]) ?_ ?_ ?_
    · intro a
      simp [dictGet]
    · show ((List.length ([] : List K) : Nat) : Int) ≤ n
      simp
      omega
    · show (1 : Int) ≤ n
      omega

/-! ## Sequences of public operations -/

/-- One public operation of the API surface. -/
inductive Op (K V : Type) where
  | write (k : K) (v : V)
  | read (k : K)
  | peekAt (k : K)
  | delete (k : K)
  | containsAt (k : K)
  | resizeTo (n : Int)
  | traverse

/-- The state reached when a public operation returns (normally or with an
exception): `contains`, like `lru`/`mru`/`filled`, reads the state without
mutating it; `traverse` is a full `items()` walk. -/
def applyOp (s : lru_dict K V) (o : Op K V) : lru_dict K V :=
  match o with
  | .write k v => (setitem k v s).2
  | .read k => (getitem k s).2
  | .peekAt k => (peek k s).2
  | .delete k => (delitem k s).2
  | .containsAt _ => s
  | .resizeTo n => (resize n s).2
  | .traverse => (traverseItems s).2

theorem applyOp_wf {s : lru_dict K V} (hs : WF s) (o : Op K V) :
    WF (applyOp s o) := by
  cases o with
  | write k v => exact (setitem_total hs k v).2
  | read k => exact getitem_wf hs k
  | peekAt k => rw [applyOp, peek_snd]; exact hs
  | delete k => exact delitem_wf hs k
  | containsAt k => exact hs
  | resizeTo n => exact resize_wf hs n
  | traverse =>
      rw [applyOp, traverseItems, traverseItemsFrom_snd]
      exact hs

theorem foldl_applyOp_wf {s : lru_dict K V} (hs : WF s)
    (ops : List (Op K V)) : WF (ops.foldl applyOp s) := by
  induction ops generalizing s with
  | nil => exact hs
  | cons o ops' ih => exact ih (applyOp_wf hs o)

/-! ## Helper lemmas for the traversal and equality claims -/

theorem traverseValuesFrom_ok (ks : List K) (s : lru_dict K V)
    (h : ∀ k ∈ ks, (dictGet s.data k).isSome) :
    traverseValuesFrom ks s =
      (.ok (ks.filterMap fun k => dictGet s.data k), s) := by
  induction ks with
  | nil => simp [traverseValuesFrom]
  | cons k ks' ih =>
      obtain ⟨v, hv⟩ := Option.isSome_iff_exists.mp (h k (by simp))
      have hrest : ∀ k' ∈ ks', (dictGet s.data k').isSome :=
        fun k' hk' => h k' (by simp [hk'])
      simp [traverseValuesFrom, peek, hv, ih hrest]

theorem filterMap_items_fst (d : List (K × V)) (ks : List K)
    (h : ∀ k ∈ ks, (dictGet d k).isSome) :
    (ks.filterMap fun k => (dictGet d k).map fun v => (k, v)).map
        Prod.fst = ks := by
  induction ks with
  | nil => simp
  | cons k ks' ih =>
      obtain ⟨v, hv⟩ := Option.isSome_iff_exists.mp (h k (by simp))
      simp [hv, ih (fun k' hk' => h k' (by simp [hk']))]

theorem itemsOf_map_fst {s : lru_dict K V} (hs : WF s) :
    (itemsOf s).map Prod.fst = s.stack :=
  filterMap_items_fst s.data s.stack (fun k hk => (hs.mem_iff k).mp hk)

theorem itemsOf_map_snd (d : List (K × V)) (ks : List K)
    (h : ∀ k ∈ ks, (dictGet d k).isSome) :
    (ks.filterMap fun k => (dictGet d k).map fun v => (k, v)).map
        Prod.snd =
      ks.filterMap fun k => dictGet d k := by
  induction ks with
  | nil => simp
  | cons k ks' ih =>
      obtain ⟨v, hv⟩ := Option.isSome_iff_exists.mp (h k (by simp))
      simp [hv, ih (fun k' hk' => h k' (by simp [hk']))]

theorem itemsView_eq_map_itemsOf (d : List (K × V)) (ks : List K)
    (h : ∀ k ∈ ks, (dictGet d k).isSome) :
    (ks.map fun k => (k, dictGet d k)) =
      (ks.filterMap fun k => (dictGet d k).map fun v => (k, v)).map
        fun p => (p.1, some p.2) := by
  induction ks with
  | nil => simp
  | cons k ks' ih =>
      obtain ⟨v, hv⟩ := Option.isSome_iff_exists.mp (h k (by simp))
      simp [hv, ih (fun k' hk' => h k' (by simp [hk']))]

theorem zip_all_beq_iff {α : Type} [DecidableEq α] (l₁ l₂ : List α)
    (h : l₁.length = l₂.length) :
    (((l₁.zip l₂).all fun pq => decide (pq.1 = pq.2)) = true) ↔
      l₁ = l₂ := by
  induction l₁ generalizing l₂ with
  | nil =>
      cases l₂ with
      | nil => simp
      | cons b l₂' => simp at h
  | cons a l ih =>
      cases l₂ with
      | nil => simp at h
      | cons b l₂' =>
          simp only [List.length_cons, Nat.succ_inj] at h
          simp [List.zip_cons_cons, List.all_cons, ih l₂' h]

theorem mru_concat (sz : Int) (l : List K) (k : K) (d : List (K × V)) :
    mru (⟨sz, l ++ [k], d⟩ : lru_dict K V) = .ok k := by
  simp [mru, List.getLast?_concat]

/-! ## The claims -/

/-- C1: for every sequence of public operations after a successful
construction, the state reached satisfies: the recency order and the
key-value table contain exactly the same set of keys, each key appearing
exactly once in the order; the entry count is at most the capacity; and
the capacity is at least 1. -/
theorem claim_C1 (n : Int) (ps : List (K × V)) (s₀ : lru_dict K V)
    (h : init n ps = .ok s₀) (ops : List (Op K V)) :
    (ops.foldl applyOp s₀).stack.Nodup ∧
    (∀ k, k ∈ (ops.foldl applyOp s₀).stack ↔
      k ∈ dictKeys (ops.foldl applyOp s₀).data) ∧
    (((ops.foldl applyOp s₀).stack.length : Int) ≤
      (ops.foldl applyOp s₀).size) ∧
    1 ≤ (ops.foldl applyOp s₀).size := by
  have hwf := foldl_applyOp_wf (init_wf n ps s₀ h) ops
  exact ⟨hwf.1,
    fun k => ⟨fun hk => hwf.2.2.1 k hk, fun hk => hwf.2.2.2.1 k hk⟩,
    hwf.2.2.2.2.1, hwf.2.2.2.2.2⟩

theorem claim_C1_witness :
    init (2 : Int) [((1 : Nat), (1 : Nat))] =
      .ok (⟨2, [1], [(1, 1)]⟩ : lru_dict Nat Nat) ∧
    (([Op.write 2 2, Op.read 1].foldl applyOp
        (⟨2, [1], [(1, 1)]⟩ : lru_dict Nat Nat)).stack.Nodup ∧
     (∀ k, k ∈ ([Op.write 2 2, Op.read 1].foldl applyOp
          (⟨2, [1], [(1, 1)]⟩ : lru_dict Nat Nat)).stack ↔
        k ∈ dictKeys (([Op.write 2 2, Op.read 1].foldl applyOp
          (⟨2, [1], [(1, 1)]⟩ : lru_dict Nat Nat))).data) ∧
     ((([Op.write 2 2, Op.read 1].foldl applyOp
          (⟨2, [1], [(1, 1)]⟩ : lru_dict Nat Nat)).stack.length : Int) ≤
        ([Op.write 2 2, Op.read 1].foldl applyOp
          (⟨2, [1], [(1, 1)]⟩ : lru_dict Nat Nat)).size) ∧
     1 ≤ ([Op.write 2 2, Op.read 1].foldl applyOp
        (⟨2, [1], [(1, 1)]⟩ : lru_dict Nat Nat)).size) :=
  ⟨by rfl,
   claim_C1 2 [(1, 1)] ⟨2, [1], [(1, 1)]⟩ (by rfl)
     [Op.write 2 2, Op.read 1]⟩

/-- C2: on a well-formed store, a write never fails; a present key keeps
its position removed and is re-appended as most-recently-used, an absent
key is appended; afterwards, exactly when the entry count exceeds the
capacity, the single least-recently-used entry (the head of the recency
order) is evicted from both structures. -/
theorem claim_C2 {s : lru_dict K V} (hs : WF s) (k : K) (v : V) :
    (setitem k v s).1 = .ok () ∧
    (if ((((if k ∈ s.stack then s.stack.erase k else s.stack) ++
          [k]).length : Nat) : Int) ≤ s.size then
      (setitem k v s).2.stack =
        (if k ∈ s.stack then s.stack.erase k else s.stack) ++ [k] ∧
      ∀ a, dictGet (setitem k v s).2.data a =
        if a = k then some v else dictGet s.data a
    else
      (setitem k v s).2.stack =
        ((if k ∈ s.stack then s.stack.erase k else s.stack) ++ [k]).tail ∧
      ∀ a, dictGet (setitem k v s).2.data a =
        if a = k then some v
        else if ((if k ∈ s.stack then s.stack.erase k else s.stack) ++
            [k]).head? = some a then none
        else dictGet s.data a) := by
  refine ⟨(setitem_total hs k v).1, ?_⟩
  by_cases hk : k ∈ s.stack
  · have hlen : (((s.stack.erase k ++ [k]).length : Nat) : Int) ≤
        s.size := by
      rw [length_bump s.stack k hk]
      exact hs.len_le
    simp only [if_pos hk]
    rw [if_pos hlen, setitem_present hs hk]
    exact ⟨rfl, fun a => dictGet_dictSet s.data k v a⟩
  · simp only [if_neg hk]
    by_cases hroom : (s.stack.length : Int) + 1 ≤ s.size
    · have hcond : (((s.stack ++ [k]).length : Nat) : Int) ≤ s.size := by
        simp only [List.length_append, List.length_cons, List.length_nil]
        push_cast
        omega
      rw [if_pos hcond, setitem_absent_room hs hk hroom]
      exact ⟨rfl, fun a => dictGet_dictSet s.data k v a⟩
    · have hne : s.stack ≠ [] := by
        intro h0
        rw [h0] at hroom
        have := hs.size_pos
        simp at hroom
        omega
      obtain ⟨k₀, rest, hst⟩ := List.exists_cons_of_ne_nil hne
      have hfull : s.size < (s.stack.length : Int) + 1 := by omega
      have hcond : ¬ ((((s.stack ++ [k]).length : Nat) : Int) ≤ s.size)
          := by
        simp only [List.length_append, List.length_cons, List.length_nil]
        push_cast
        omega
      rw [if_neg hcond, setitem_absent_full hs hk hst hfull]
      have hkk₀ : k ≠ k₀ := by
        rw [hst] at hk
        simp only [List.mem_cons, not_or] at hk
        exact hk.1
      have hsetnd : (dictKeys (dictSet s.data k v)).Nodup :=
        dictKeys_dictSet_nodup _ _ _ hs.data_nodup
      constructor
      · rw [hst]
        rfl
      · intro a
        show dictGet (dictErase (dictSet s.data k v) k₀) a = _
        rw [dictGet_dictErase _ _ _ hsetnd, dictGet_dictSet, hst]
        by_cases hak₀ : a = k₀
        · subst hak₀
          simp [Ne.symm hkk₀]
        · by_cases hak : a = k
          · subst hak
            simp [hak₀]
          · simp only [if_neg hak₀, if_neg hak, List.cons_append,
              List.head?_cons, Option.some.injEq]
            rw [if_neg (fun he => hak₀ he.symm)]

theorem claim_C2_witness :
    WF (⟨2, [1, 2], [(1, 10), (2, 20)]⟩ : lru_dict Nat Nat) ∧
    ((setitem 3 30 (⟨2, [1, 2], [(1, 10), (2, 20)]⟩ :
        lru_dict Nat Nat)).1 = .ok () ∧
     (if ((((if 3 ∈ [1, 2] then List.erase [1, 2] 3 else [1, 2]) ++
           [3]).length : Nat) : Int) ≤ (2 : Int) then
       (setitem 3 30 (⟨2, [1, 2], [(1, 10), (2, 20)]⟩ :
           lru_dict Nat Nat)).2.stack =
         (if 3 ∈ [1, 2] then List.erase [1, 2] 3 else [1, 2]) ++ [3] ∧
       ∀ a, dictGet (setitem 3 30 (⟨2, [1, 2], [(1, 10), (2, 20)]⟩ :
           lru_dict Nat Nat)).2.data a =
         if a = 3 then some 30 else dictGet [(1, 10), (2, 20)] a
     else
       (setitem 3 30 (⟨2, [1, 2], [(1, 10), (2, 20)]⟩ :
           lru_dict Nat Nat)).2.stack =
         ((if 3 ∈ [1, 2] then List.erase [1, 2] 3 else [1, 2]) ++
           [3]).tail ∧
       ∀ a, dictGet (setitem 3 30 (⟨2, [1, 2], [(1, 10), (2, 20)]⟩ :
           lru_dict Nat Nat)).2.data a =
         if a = 3 then some 30
         else if ((if 3 ∈ [1, 2] then List.erase [1, 2] 3 else
             [1, 2]) ++ [3]).head? = some a then none
         else dictGet [(1, 10), (2, 20)] a)) :=
  ⟨by decide, claim_C2 (by decide) 3 30⟩

/-- C3: reading a present key returns its stored value and moves the key
to the most-recently-used position; the dict and the relative order of the
other keys are untouched. -/
theorem claim_C3 {s : lru_dict K V} (hs : WF s) (k : K) (v : V)
    (hv : dictGet s.data k = some v) :
    getitem k s = (.ok v, ⟨s.size, s.stack.erase k ++ [k], s.data⟩) ∧
    mru (getitem k s).2 = .ok k := by
  have h := getitem_present hs hv
  exact ⟨h, by rw [h]; exact mru_concat s.size (s.stack.erase k) k s.data⟩

theorem claim_C3_witness :
    WF (⟨3, [1, 2], [(1, 10), (2, 20)]⟩ : lru_dict Nat Nat) ∧
    dictGet [((1 : Nat), (10 : Nat)), (2, 20)] 1 = some 10 ∧
    (getitem 1 (⟨3, [1, 2], [(1, 10), (2, 20)]⟩ : lru_dict Nat Nat) =
      (.ok 10, ⟨3, List.erase [1, 2] 1 ++ [1], [(1, 10), (2, 20)]⟩) ∧
     mru (getitem 1 (⟨3, [1, 2], [(1, 10), (2, 20)]⟩ :
        lru_dict Nat Nat)).2 = .ok 1) :=
  ⟨by decide, by decide, claim_C3 (by decide) 1 10 (by decide)⟩

/-- C4: peeking a present key returns its stored value and leaves the
whole store state unchanged, in particular the least- and most-recently
used keys and the capacity. -/
theorem claim_C4 {s : lru_dict K V} (k : K) (v : V)
    (hv : dictGet s.data k = some v) :
    peek k s = (.ok v, s) ∧ lru (peek k s).2 = lru s ∧
    mru (peek k s).2 = mru s ∧ (peek k s).2.size = s.size := by
  have h := peek_present hv
  exact ⟨h, by rw [h], by rw [h], by rw [h]⟩

theorem claim_C4_witness :
    dictGet [((1 : Nat), (10 : Nat)), (2, 20)] 2 = some 20 ∧
    (peek 2 (⟨3, [1, 2], [(1, 10), (2, 20)]⟩ : lru_dict Nat Nat) =
      (.ok 20, ⟨3, [1, 2], [(1, 10), (2, 20)]⟩) ∧
     lru (peek 2 (⟨3, [1, 2], [(1, 10), (2, 20)]⟩ :
        lru_dict Nat Nat)).2 =
       lru (⟨3, [1, 2], [(1, 10), (2, 20)]⟩ : lru_dict Nat Nat) ∧
     mru (peek 2 (⟨3, [1, 2], [(1, 10), (2, 20)]⟩ :
        lru_dict Nat Nat)).2 =
       mru (⟨3, [1, 2], [(1, 10), (2, 20)]⟩ : lru_dict Nat Nat) ∧
     (peek 2 (⟨3, [1, 2], [(1, 10), (2, 20)]⟩ :
        lru_dict Nat Nat)).2.size = 3) :=
  ⟨by decide, claim_C4 2 20 (by decide)⟩

/-- C5: resizing to a capacity below 1 fails with `ValueError` and leaves
the store unchanged (construction with such a capacity fails the same
way); resizing to `n ≥ 1` succeeds, sets the capacity to `n`, keeps the
newest `n` entries of the recency order (evicting the oldest
`count - n` in one batch, survivors in their relative order), and removes
exactly the evicted keys from the dict. -/
theorem claim_C5 {s : lru_dict K V} (hs : WF s) (n : Int) :
    (n < 1 → resize n s = (.error .valueError, s) ∧
      ∀ ps : List (K × V),
        init n ps = (.error .valueError : Except Err (lru_dict K V))) ∧
    (1 ≤ n →
      (resize n s).1 = .ok () ∧
      (resize n s).2.size = n ∧
      (resize n s).2.stack =
        s.stack.drop (s.stack.length - n.toNat) ∧
      ∀ a, dictGet (resize n s).2.data a =
        if a ∈ s.stack.take (s.stack.length - n.toNat) then none
        else dictGet s.data a) := by
  constructor
  · intro hlt
    exact ⟨resize_invalid hlt, fun ps => by rw [init, if_pos hlt]⟩
  · intro hge
    by_cases hlen : (s.stack.length : Int) ≤ n
    · have hcut : s.stack.length - n.toNat = 0 := by omega
      rw [resize_noop hge hlen, hcut]
      refine ⟨rfl, rfl, by simp, fun a => by simp⟩
    · have hgt : (s.stack.length : Int) > n := by omega
      rw [resize_trunc hs hge hgt]
      exact ⟨rfl, rfl, rfl,
        fun a => dictGet_eraseAll s.data _ a hs.data_nodup⟩

theorem claim_C5_witness :
    WF (⟨3, [1, 2, 3], [(1, 10), (2, 20), (3, 30)]⟩ :
      lru_dict Nat Nat) ∧
    ((2 : Int) < 1 →
      resize 2 (⟨3, [1, 2, 3], [(1, 10), (2, 20), (3, 30)]⟩ :
        lru_dict Nat Nat) =
        (.error .valueError, ⟨3, [1, 2, 3], [(1, 10), (2, 20), (3, 30)]⟩)
      ∧ ∀ ps : List (Nat × Nat),
        init 2 ps = (.error .valueError : Except Err (lru_dict Nat Nat)))
    ∧
    ((1 : Int) ≤ 2 →
      (resize 2 (⟨3, [1, 2, 3], [(1, 10), (2, 20), (3, 30)]⟩ :
        lru_dict Nat Nat)).1 = .ok () ∧
      (resize 2 (⟨3, [1, 2, 3], [(1, 10), (2, 20), (3, 30)]⟩ :
        lru_dict Nat Nat)).2.size = 2 ∧
      (resize 2 (⟨3, [1, 2, 3], [(1, 10), (2, 20), (3, 30)]⟩ :
        lru_dict Nat Nat)).2.stack =
        List.drop (List.length [1, 2, 3] - (2 : Int).toNat) [1, 2, 3] ∧
      ∀ a, dictGet (resize 2 (⟨3, [1, 2, 3],
          [(1, 10), (2, 20), (3, 30)]⟩ : lru_dict Nat Nat)).2.data a =
        if a ∈ List.take (List.length [1, 2, 3] - (2 : Int).toNat)
            [1, 2, 3] then none
        else dictGet [(1, 10), (2, 20), (3, 30)] a) :=
  ⟨by decide, (claim_C5 (by decide) 2).1, (claim_C5 (by decide) 2).2⟩

/-- C6: a traversal of the keys, values, or key-value pairs yields them in
recency order from oldest to newest (the key sequence is exactly the
recency order), and the traversal leaves the store — in particular the
most-recently-used key — unchanged. -/
theorem claim_C6 {s : lru_dict K V} (hs : WF s) :
    keysList s = s.stack ∧
    traverseItems s = (.ok (itemsOf s), s) ∧
    traverseValues s = (.ok ((itemsOf s).map Prod.snd), s) ∧
    (itemsOf s).map Prod.fst = s.stack ∧
    mru (traverseItems s).2 = mru s := by
  have hmem : ∀ k ∈ s.stack, (dictGet s.data k).isSome :=
    fun k hk => (hs.mem_iff k).mp hk
  have hi := traverseItems_wf hs
  refine ⟨rfl, hi, ?_, itemsOf_map_fst hs, by rw [hi]⟩
  show traverseValuesFrom s.stack s = _
  rw [traverseValuesFrom_ok s.stack s hmem]
  have h2 := itemsOf_map_snd s.data s.stack hmem
  rw [show itemsOf s =
      s.stack.filterMap fun k => (dictGet s.data k).map fun v => (k, v)
    from rfl, h2]

theorem claim_C6_witness :
    WF (⟨3, [2, 1], [(1, 10), (2, 20)]⟩ : lru_dict Nat Nat) ∧
    (keysList (⟨3, [2, 1], [(1, 10), (2, 20)]⟩ : lru_dict Nat Nat) =
      [2, 1] ∧
     traverseItems (⟨3, [2, 1], [(1, 10), (2, 20)]⟩ :
        lru_dict Nat Nat) =
      (.ok (itemsOf (⟨3, [2, 1], [(1, 10), (2, 20)]⟩ :
          lru_dict Nat Nat)),
       ⟨3, [2, 1], [(1, 10), (2, 20)]⟩) ∧
     traverseValues (⟨3, [2, 1], [(1, 10), (2, 20)]⟩ :
        lru_dict Nat Nat) =
      (.ok ((itemsOf (⟨3, [2, 1], [(1, 10), (2, 20)]⟩ :
          lru_dict Nat Nat)).map Prod.snd),
       ⟨3, [2, 1], [(1, 10), (2, 20)]⟩) ∧
     (itemsOf (⟨3, [2, 1], [(1, 10), (2, 20)]⟩ :
        lru_dict Nat Nat)).map Prod.fst = [2, 1] ∧
     mru (traverseItems (⟨3, [2, 1], [(1, 10), (2, 20)]⟩ :
        lru_dict Nat Nat)).2 =
       mru (⟨3, [2, 1], [(1, 10), (2, 20)]⟩ : lru_dict Nat Nat)) :=
  ⟨by decide,
   @claim_C6 Nat Nat _ ⟨3, [2, 1], [(1, 10), (2, 20)]⟩ (by decide)⟩

/-- C7: on a well-formed store, each of read, peek and delete fails with
`KeyError` exactly when the key is absent, and a failed call leaves the
store completely unchanged (both the dict and the recency order); when
the key is present all three succeed. -/
theorem claim_C7 {s : lru_dict K V} (hs : WF s) (k : K) :
    (dictGet s.data k = none →
      getitem k s = (.error .keyError, s) ∧
      peek k s = (.error .keyError, s) ∧
      delitem k s = (.error .keyError, s)) ∧
    (∀ v, dictGet s.data k = some v →
      (getitem k s).1 = .ok v ∧ (peek k s).1 = .ok v ∧
      (delitem k s).1 = .ok ()) := by
  constructor
  · intro hn
    exact ⟨getitem_absent hs hn, peek_absent hn, delitem_absent hn⟩
  · intro v hv
    exact ⟨by rw [getitem_present hs hv], by rw [peek_present hv],
      by rw [delitem_present hs hv]⟩

theorem claim_C7_witness :
    WF (⟨3, [1, 2], [(1, 10), (2, 20)]⟩ : lru_dict Nat Nat) ∧
    ((dictGet [((1 : Nat), (10 : Nat)), (2, 20)] 5 = none →
       getitem 5 (⟨3, [1, 2], [(1, 10), (2, 20)]⟩ : lru_dict Nat Nat) =
         (.error .keyError, ⟨3, [1, 2], [(1, 10), (2, 20)]⟩) ∧
       peek 5 (⟨3, [1, 2], [(1, 10), (2, 20)]⟩ : lru_dict Nat Nat) =
         (.error .keyError, ⟨3, [1, 2], [(1, 10), (2, 20)]⟩) ∧
       delitem 5 (⟨3, [1, 2], [(1, 10), (2, 20)]⟩ : lru_dict Nat Nat) =
         (.error .keyError, ⟨3, [1, 2], [(1, 10), (2, 20)]⟩)) ∧
     (∀ v, dictGet [((1 : Nat), (10 : Nat)), (2, 20)] 5 = some v →
       (getitem 5 (⟨3, [1, 2], [(1, 10), (2, 20)]⟩ :
          lru_dict Nat Nat)).1 = .ok v ∧
       (peek 5 (⟨3, [1, 2], [(1, 10), (2, 20)]⟩ :
          lru_dict Nat Nat)).1 = .ok v ∧
       (delitem 5 (⟨3, [1, 2], [(1, 10), (2, 20)]⟩ :
          lru_dict Nat Nat)).1 = .ok ())) :=
  ⟨by decide,
   @claim_C7 Nat Nat _ ⟨3, [1, 2], [(1, 10), (2, 20)]⟩ (by decide) 5⟩

/-- C8: two well-formed stores compare equal exactly when their
capacities are equal, their entry counts are equal, and their key-value
entries walked in recency order are pairwise equal; in particular stores
with the same contents in different recency orders are unequal. -/
theorem claim_C8 [DecidableEq V] {a b : lru_dict K V} (ha : WF a)
    (hb : WF b) :
    lruEq a b = true ↔
      (a.size = b.size ∧ a.stack.length = b.stack.length ∧
       itemsOf a = itemsOf b) := by
  have hma : itemsView a = (itemsOf a).map
      (fun p => ((p.1, some p.2) : K × Option V)) :=
    itemsView_eq_map_itemsOf a.data a.stack
      (fun k hk => (ha.mem_iff k).mp hk)
  have hmb : itemsView b = (itemsOf b).map
      (fun p => ((p.1, some p.2) : K × Option V)) :=
    itemsView_eq_map_itemsOf b.data b.stack
      (fun k hk => (hb.mem_iff k).mp hk)
  have hinj : Function.Injective
      (fun p : K × V => ((p.1, some p.2) : K × Option V)) := by
    intro p q h
    cases p
    cases q
    simp only [Prod.mk.injEq, Option.some.injEq] at h
    simp [h.1, h.2]
  unfold lruEq
  simp only [Bool.and_eq_true, beq_iff_eq]
  constructor
  · rintro ⟨⟨hsz, hlen⟩, hall⟩
    refine ⟨hsz, hlen, ?_⟩
    have hlv : (itemsView a).length = (itemsView b).length := by
      simp [itemsView, hlen]
    have hveq := (zip_all_beq_iff _ _ hlv).mp hall
    have hveq' : ((itemsOf a).map fun p => ((p.1, some p.2) :
        K × Option V)) = (itemsOf b).map fun p => (p.1, some p.2) :=
      (hma.symm.trans hveq).trans hmb
    exact List.map_injective_iff.mpr hinj hveq'
  · rintro ⟨hsz, hlen, hitems⟩
    refine ⟨⟨hsz, hlen⟩, ?_⟩
    have hveq : itemsView a = itemsView b :=
      (hma.trans (by rw [hitems])).trans hmb.symm
    exact (zip_all_beq_iff _ _ (by rw [hveq])).mpr hveq

theorem claim_C8_witness :
    WF (⟨2, [1, 2], [(1, 10), (2, 20)]⟩ : lru_dict Nat Nat) ∧
    WF (⟨2, [2, 1], [(1, 10), (2, 20)]⟩ : lru_dict Nat Nat) ∧
    (lruEq (⟨2, [1, 2], [(1, 10), (2, 20)]⟩ : lru_dict Nat Nat)
        ⟨2, [2, 1], [(1, 10), (2, 20)]⟩ = true ↔
      ((2 : Int) = 2 ∧
       List.length [1, 2] = List.length [2, 1] ∧
       itemsOf (⟨2, [1, 2], [(1, 10), (2, 20)]⟩ : lru_dict Nat Nat) =
         itemsOf (⟨2, [2, 1], [(1, 10), (2, 20)]⟩ :
           lru_dict Nat Nat))) :=
  ⟨by decide, by decide, claim_C8 (by decide) (by decide)⟩

/-- C9: the least/most-recently-used accessors fail with an index error
on any empty store; deleting the sole entry of a one-entry store succeeds,
leaves the store empty, and both accessors then fail. -/
theorem claim_C9 {s : lru_dict K V} (hs : WF s) (k : K)
    (hst : s.stack = [k]) :
    (∀ t : lru_dict K V, t.stack = [] →
      lru t = .error .indexError ∧ mru t = .error .indexError) ∧
    (delitem k s).1 = .ok () ∧
    (delitem k s).2.stack = [] ∧
    (∀ a, dictGet (delitem k s).2.data a = none) ∧
    lru (delitem k s).2 = .error .indexError ∧
    mru (delitem k s).2 = .error .indexError := by
  have hk : k ∈ s.stack := by rw [hst]; simp
  obtain ⟨v, hv⟩ := Option.isSome_iff_exists.mp ((hs.mem_iff k).mp hk)
  have hd := delitem_present hs hv
  have hstack : s.stack.erase k = [] := by
    rw [hst, List.erase_cons_head]
  have hempty : ∀ a, dictGet (dictErase s.data k) a = none := by
    intro a
    rw [dictGet_dictErase _ _ _ hs.data_nodup]
    by_cases ha : a = k
    · simp [ha]
    · simp only [if_neg ha]
      rw [dictGet_eq_none_iff]
      intro hmem
      have hmem' := hs.2.2.2.1 a hmem
      rw [hst] at hmem'
      simp at hmem'
      exact ha hmem'
  refine ⟨fun t ht => ⟨by simp [lru, ht], by simp [mru, ht]⟩,
    ?_, ?_, ?_, ?_, ?_⟩
  · rw [hd]
  · rw [hd]
    exact hstack
  · rw [hd]
    exact hempty
  · rw [hd]
    show lru ⟨s.size, s.stack.erase k, dictErase s.data k⟩ = _
    rw [hstack]
    rfl
  · rw [hd]
    show mru ⟨s.size, s.stack.erase k, dictErase s.data k⟩ = _
    rw [hstack]
    rfl

theorem claim_C9_witness :
    WF (⟨4, [7], [(7, 70)]⟩ : lru_dict Nat Nat) ∧
    ((∀ t : lru_dict Nat Nat, t.stack = [] →
       lru t = .error .indexError ∧ mru t = .error .indexError) ∧
     (delitem 7 (⟨4, [7], [(7, 70)]⟩ : lru_dict Nat Nat)).1 = .ok () ∧
     (delitem 7 (⟨4, [7], [(7, 70)]⟩ :
        lru_dict Nat Nat)).2.stack = [] ∧
     (∀ a, dictGet (delitem 7 (⟨4, [7], [(7, 70)]⟩ :
        lru_dict Nat Nat)).2.data a = none) ∧
     lru (delitem 7 (⟨4, [7], [(7, 70)]⟩ :
        lru_dict Nat Nat)).2 = .error .indexError ∧
     mru (delitem 7 (⟨4, [7], [(7, 70)]⟩ :
        lru_dict Nat Nat)).2 = .error .indexError) :=
  ⟨by decide, claim_C9 (by decide) 7 (by decide)⟩

/-- C10: resizing to a capacity that is at least 1 and at least the
current entry count changes only the capacity: the call succeeds and the
recency order and the dict are exactly as before, with no eviction. -/
theorem claim_C10 (s : lru_dict K V) (n : Int) (h1 : 1 ≤ n)
    (hlen : (s.stack.length : Int) ≤ n) :
    resize n s = (.ok (), ⟨n, s.stack, s.data⟩) := by
  rw [resize_noop h1 hlen]

theorem claim_C10_witness :
    (1 : Int) ≤ 5 ∧
    ((List.length [1, 2] : Int) ≤ 5) ∧
    resize 5 (⟨3, [1, 2], [(1, 10), (2, 20)]⟩ : lru_dict Nat Nat) =
      (.ok (), ⟨5, [1, 2], [(1, 10), (2, 20)]⟩) :=
  ⟨by decide, by decide,
   claim_C10 ⟨3, [1, 2], [(1, 10), (2, 20)]⟩ 5 (by decide) (by decide)⟩

end LruDict
